import Mathlib

/-!
Shallow embedding of `remap_code_references.py`.

Lines of text are modelled as `List Char`.  The regular expression
scan of `re.sub(r'#(\d+)\b', replace_issue, line)` is modelled by a
structurally recursive left-to-right scanner (`remapGo`): a match is a
`'#'` followed by a maximal nonempty run of digits whose following
character, if any, is not a word character (with the digits being word
characters, the trailing `\b` of the pattern is equivalent to this
condition; backtracking inside `\d+` cannot help because any shorter
digit run is followed by a digit).  After a match the scan resumes
after the matched text, which the scanner realises by re-walking the
consumed digit run in a digit-dropping mode.

The embedding restricts `\d` and `\w` to their ASCII fragments
(`Char.isDigit`, letters/digits/underscore); none of the inputs in the
claims involve non-ASCII text.
-/

set_option maxHeartbeats 1000000

/-- Python `\w` (ASCII fragment): letter, digit or underscore. -/
def isWordChar (c : Char) : Bool := c.isAlphanum || c == '_'

/-- Maximal leading run of digits of a character list. -/
def takeDigits : List Char → List Char
  | [] => []
  | c :: cs => if c.isDigit then c :: takeDigits cs else []

/-- What remains of a character list after its maximal leading digit run. -/
def dropDigits : List Char → List Char
  | [] => []
  | c :: cs => if c.isDigit then dropDigits cs else c :: cs

/-- Numeric value of a digit string, as computed by Python `int(...)`
on the matched group (most significant digit first; leading zeros allowed). -/
def digitsVal (l : List Char) : Nat := l.foldl (fun a c => 10 * a + (c.toNat - 48)) 0

/-- Decimal digit characters of `n / 10^k ...`, fuel-driven so that it
reduces in the kernel.  `natCharsAux fuel n` is the decimal rendering of
`n` provided `n ≤ fuel` (and `n ≠ 0`). -/
def natCharsAux : Nat → Nat → List Char
  | 0, _ => []
  | _ + 1, 0 => []
  | fuel + 1, n + 1 => natCharsAux fuel ((n + 1) / 10) ++ [Nat.digitChar ((n + 1) % 10)]

/-- Decimal rendering of a natural number, as Python `str` produces it. -/
def natChars (n : Nat) : List Char := if n = 0 then ['0'] else natCharsAux n n

/-- Decimal rendering of an integer, as Python `f"#{new_num}"` interpolates it. -/
def intChars (n : Int) : List Char :=
  if n < 0 then '-' :: natChars n.natAbs else natChars n.toNat

/-- Trailing word boundary test for the text following the digit run:
`\b` holds there iff the next character is absent or not a word character
(the preceding digit is always a word character). -/
def boundaryOk (t : List Char) : Bool :=
  match t.head? with
  | none => true
  | some c => !isWordChar c

/-- The first character of `t`, if any, is not a digit. -/
def headNonDigit (t : List Char) : Bool :=
  match t.head? with
  | none => true
  | some c => !c.isDigit

/-- Python dict lookup `mapping[old_num]` guarded by `old_num in mapping`.
The dict (unique keys) is modelled as an association list with
first-match lookup. -/
def mapLookup (m : List (Int × Int)) (k : Int) : Option Int :=
  match m with
  | [] => none
  | p :: rest => if p.1 = k then some p.2 else mapLookup rest k

/-- The inner `replace_issue(match)` callback of `remap_line`
(source lines 55-64): given the digit group of a match it returns the
replacement text together with the change record appended, if any.
`old_num in mapping` and `mapping[old_num]` are `mapLookup`;
`match.group(0)` is `'#' :: ds`; `f"#{new_num}"` is `'#' :: intChars nw`. -/
def replace_issue (m : List (Int × Int)) (ds : List Char) : List Char × Option (Int × Int) :=
  match mapLookup m (digitsVal ds : Int) with
  | some nw =>
    if (digitsVal ds : Int) = nw then ('#' :: ds, none)
    else ('#' :: intChars nw, some ((digitsVal ds : Int), nw))
  | none => ('#' :: ds, none)

/-- Left-to-right scan of `re.sub(r'#(\d+)\b', replace_issue, line)`.
When the mode is `true` the scanner is inside the digit run of a match it
has just consumed and drops those digits (they are part of the consumed
match; the replacement text was already emitted).  Produces the rewritten
text and the change records in match order. -/
def remapGo (m : List (Int × Int)) : Bool → List Char → List Char × List (Int × Int)
  | _, [] => ([], [])
  | dropMode, c :: cs =>
    if dropMode && c.isDigit then remapGo m true cs
    else if c == '#' then
      let ds := takeDigits cs
      if !ds.isEmpty && boundaryOk (dropDigits cs) then
        let rp := replace_issue m ds
        let r := remapGo m true cs
        (rp.1 ++ r.1, rp.2.toList ++ r.2)
      else
        let r := remapGo m false cs
        (c :: r.1, r.2)
    else
      let r := remapGo m false cs
      (c :: r.1, r.2)

/-- `remap_line(line, mapping)` (source lines 48-68): returns the
updated line and the list of `(old_num, new_num)` changes made. -/
def remap_line (m : List (Int × Int)) (l : List Char) : List Char × List (Int × Int) :=
  remapGo m false l

/-- A lexical token of a line under the pattern `#(\d+)\b`: either a
single literal character or a matched reference with its digit group. -/
inductive Tok where
  | lit : Char → Tok
  | ref : List Char → Tok
deriving DecidableEq

/-- Tokenisation of a line by the same scan as `remapGo`, independent of
any mapping. -/
def tokensGo : Bool → List Char → List Tok
  | _, [] => []
  | dropMode, c :: cs =>
    if dropMode && c.isDigit then tokensGo true cs
    else if c == '#' then
      let ds := takeDigits cs
      if !ds.isEmpty && boundaryOk (dropDigits cs) then Tok.ref ds :: tokensGo true cs
      else Tok.lit c :: tokensGo false cs
    else Tok.lit c :: tokensGo false cs

/-- Tokens of a whole line. -/
def lineTokens (l : List Char) : List Tok := tokensGo false l

/-- The original text of a token. -/
def tokText : Tok → List Char
  | Tok.lit c => [c]
  | Tok.ref ds => '#' :: ds

/-- The rewritten text of a token under a mapping: literal characters
are untouched, reference tokens are rewritten by `replace_issue`. -/
def renderTok (m : List (Int × Int)) : Tok → List Char
  | Tok.lit c => [c]
  | Tok.ref ds => (replace_issue m ds).1

/-- The change record a token contributes, if any. -/
def chgTok (m : List (Int × Int)) : Tok → Option (Int × Int)
  | Tok.lit _ => none
  | Tok.ref ds => (replace_issue m ds).2

/-- The reference value of a token, if it is a reference. -/
def refVal : Tok → Option Int
  | Tok.lit _ => none
  | Tok.ref ds => some (digitsVal ds : Int)

/-- `find_issue_references_in_line` scan (source lines 37-45): the same
`re.finditer(r'#(\d+)\b', line)` walk, collecting the matched values.
The Python `set` is modelled as the list of matched values, which is
membership-equivalent. -/
def findRefsGo : Bool → List Char → List Int
  | _, [] => []
  | dropMode, c :: cs =>
    if dropMode && c.isDigit then findRefsGo true cs
    else if c == '#' then
      let ds := takeDigits cs
      if !ds.isEmpty && boundaryOk (dropDigits cs) then
        (digitsVal ds : Int) :: findRefsGo true cs
      else findRefsGo false cs
    else findRefsGo false cs

/-- `find_issue_references_in_line(line)`. -/
def find_issue_references_in_line (l : List Char) : List Int := findRefsGo false l

/-- The coarse pre-filter of `main` (source line 161):
`re.search(r'#\d+\b', content)` succeeds iff the scan finds a match. -/
def has_issue_reference (content : List Char) : Bool :=
  !(findRefsGo false content).isEmpty

/-- Python whitespace as removed by `str.rstrip()` (ASCII fragment). -/
def isPySpace (c : Char) : Bool :=
  c == ' ' || c == '\t' || c == '\n' || c == '\r' || c == '\x0b' || c == '\x0c'

/-- Python `line.rstrip()`. -/
def pyRstrip (l : List Char) : List Char := (l.reverse.dropWhile isPySpace).reverse

/-- One entry of the `line_changes` report of `process_file`
(source line 93): `(line_num, changes, line.rstrip(), new_line.rstrip())`. -/
structure LineChange where
  lineNum : Nat
  changes : List (Int × Int)
  oldLine : List Char
  newLine : List Char
deriving DecidableEq

/-- The per-line loop of `process_file` (source lines 83-93), numbering
lines from `n`: produces `new_lines`, `total_changes` and `line_changes`. -/
def processLines (m : List (Int × Int)) : Nat → List (List Char) →
    List (List Char) × Nat × List LineChange
  | _, [] => ([], 0, [])
  | n, l :: ls =>
    let r := remap_line m l
    let rest := processLines m (n + 1) ls
    (r.1 :: rest.1, r.2.length + rest.2.1,
     if r.2.isEmpty then rest.2.2
     else ⟨n, r.2, pyRstrip l, pyRstrip r.1⟩ :: rest.2.2)

/-- `process_file` (source lines 71-122) on a file already read as a list
of lines.  The filesystem write is modelled by the environment flag
`writeOk` (whether the write would succeed); the reported value is
`(changed, num_changes)`, the middle component is the content persisted
to disk by a successful write (`none`: no successful write happened),
and the last component is the printed per-file change report (`[]` when
nothing is printed, which in the source happens exactly when
`total_changes == 0` via the early return at lines 95-96). -/
def process_file (m : List (Int × Int)) (lines : List (List Char))
    (dry_run : Bool) (writeOk : Bool) :
    (Bool × Nat) × Option (List (List Char)) × List LineChange :=
  let p := processLines m 1 lines
  if p.2.1 = 0 then ((false, 0), none, [])
  else if dry_run then ((true, p.2.1), none, p.2.2)
  else if writeOk then ((true, p.2.1), some p.1, p.2.2)
  else ((false, p.2.1), none, p.2.2)

/-- One step of the summary accumulation of `main` (source lines 172-176):
a file is a pair of its lines and its write-success flag. -/
def mainStep (m : List (Int × Int)) (dry_run : Bool) (acc : Nat × Nat)
    (f : List (List Char) × Bool) : Nat × Nat :=
  let r := process_file m f.1 dry_run f.2
  if r.1.1 then (acc.1 + 1, acc.2 + r.1.2) else acc

/-- The `total_files_changed` / `total_changes` summary counters of
`main` over the processed files (source lines 169-176). -/
def mainAccum (m : List (Int × Int)) (dry_run : Bool)
    (files : List (List (List Char) × Bool)) : Nat × Nat :=
  files.foldl (mainStep m dry_run) (0, 0)

/-- A JSON value as `json.load` can produce inside the `mappings`
object.  Floats are not modelled; they are not needed by the claims. -/
inductive JValue where
  | int : Int → JValue
  | str : String → JValue
  | bool : Bool → JValue
  | null : JValue
deriving DecidableEq

/-- Python `int(k)` on a string: optional sign followed by a nonempty
digit run.  (Python additionally strips surrounding whitespace and
allows underscore separators; no claim depends on those.) -/
def pyIntOfString (s : String) : Option Int :=
  match s.toList with
  | [] => none
  | '-' :: ds => if !ds.isEmpty && ds.all Char.isDigit then some (-(digitsVal ds : Int)) else none
  | '+' :: ds => if !ds.isEmpty && ds.all Char.isDigit then some ((digitsVal ds : Int)) else none
  | ds => if ds.all Char.isDigit then some ((digitsVal ds : Int)) else none

/-- The dict comprehension of `load_mapping` (source line 21):
`{int(k): v for k, v in data["mappings"].items()}`.  Each key is
converted with `int(k)` (fatal on failure); the values are passed
through unexamined.  The argument is the `mappings` object as a list of
key/value pairs; a `none` result models the raised exception. -/
def load_mapping : List (String × JValue) → Option (List (Int × JValue))
  | [] => some []
  | kv :: rest =>
    match pyIntOfString kv.1, load_mapping rest with
    | some k, some r => some ((k, kv.2) :: r)
    | _, _ => none

/-! ### Character and digit-run facts -/

theorem digit_ne_hash {c : Char} (h : c.isDigit = true) : (c == '#') = false := by
  cases hc : c == '#'
  · rfl
  · have hce : c = '#' := by exact beq_iff_eq.mp hc
    subst hce
    exact absurd h (by decide)

theorem word_ne_hash {c : Char} (h : isWordChar c = true) : (c == '#') = false := by
  cases hc : c == '#'
  · rfl
  · have hce : c = '#' := by exact beq_iff_eq.mp hc
    subst hce
    exact absurd h (by decide)

theorem takeDigits_append_dropDigits (l : List Char) :
    takeDigits l ++ dropDigits l = l := by
  induction l with
  | nil => rfl
  | cons c cs ih =>
    by_cases h : c.isDigit = true
    · simp [takeDigits, dropDigits, h, ih]
    · simp [takeDigits, dropDigits, h]

theorem takeDigits_all {l : List Char} : ∀ c ∈ takeDigits l, c.isDigit = true := by
  induction l with
  | nil => intro c hc; cases hc
  | cons d cs ih =>
    by_cases h : d.isDigit = true
    · simp only [takeDigits, h, if_pos]
      intro c hc
      rcases List.mem_cons.mp hc with h1 | h1
      · exact h1 ▸ h
      · exact ih c h1
    · simp [takeDigits, h]

theorem headNonDigit_dropDigits (l : List Char) : headNonDigit (dropDigits l) = true := by
  induction l with
  | nil => rfl
  | cons c cs ih =>
    by_cases h : c.isDigit = true
    · simpa [dropDigits, h] using ih
    · simp [dropDigits, h, headNonDigit]

theorem dropDigits_length (l : List Char) : (dropDigits l).length ≤ l.length := by
  induction l with
  | nil => simp [dropDigits]
  | cons c cs ih =>
    by_cases h : c.isDigit = true
    · simp only [dropDigits, h, if_pos]
      exact Nat.le_succ_of_le ih
    · simp [dropDigits, h]

theorem takeDigits_eq_nil_iff {l : List Char} :
    takeDigits l = [] ↔ headNonDigit l = true := by
  cases l with
  | nil => simp [takeDigits, headNonDigit]
  | cons c cs =>
    by_cases h : c.isDigit = true <;> simp [takeDigits, headNonDigit, h]

theorem takeDigits_append {ds t : List Char} (hds : ∀ c ∈ ds, c.isDigit = true)
    (ht : headNonDigit t = true) : takeDigits (ds ++ t) = ds := by
  induction ds with
  | nil =>
    simpa [takeDigits_eq_nil_iff]
  | cons d ds ih =>
    have hd : d.isDigit = true := hds d (by simp)
    have hrec := ih (fun c hc => hds c (by simp [hc]))
    simp only [List.cons_append, takeDigits, hd, if_pos, List.append_eq, hrec]

theorem dropDigits_append {ds t : List Char} (hds : ∀ c ∈ ds, c.isDigit = true)
    (ht : headNonDigit t = true) : dropDigits (ds ++ t) = t := by
  induction ds with
  | nil =>
    cases t with
    | nil => rfl
    | cons c cs =>
      have : c.isDigit = false := by
        simpa [headNonDigit] using ht
      simp [dropDigits, this]
  | cons d ds ih =>
    have hd : d.isDigit = true := hds d (by simp)
    simp only [List.cons_append, dropDigits, hd, if_pos]
    exact ih (fun c hc => hds c (by simp [hc]))

theorem headNonDigit_eq_of_head? {a b : List Char} (h : a.head? = b.head?) :
    headNonDigit a = headNonDigit b := by
  unfold headNonDigit
  rw [h]

theorem boundaryOk_eq_of_head? {a b : List Char} (h : a.head? = b.head?) :
    boundaryOk a = boundaryOk b := by
  unfold boundaryOk
  rw [h]

theorem boundaryOk_false {t : List Char} (h : boundaryOk t = false) :
    ∃ w r, t = w :: r ∧ isWordChar w = true := by
  cases t with
  | nil => exact absurd h (by simp [boundaryOk])
  | cons w r =>
    refine ⟨w, r, rfl, ?_⟩
    simpa [boundaryOk] using h

/-! ### Decimal rendering facts -/

theorem digitChar_isDigit {m : Nat} (h : m < 10) : (Nat.digitChar m).isDigit = true := by
  interval_cases m <;> decide

theorem digitChar_val {m : Nat} (h : m < 10) : (Nat.digitChar m).toNat - 48 = m := by
  interval_cases m <;> decide

theorem digitsVal_append_singleton (l : List Char) (c : Char) :
    digitsVal (l ++ [c]) = 10 * digitsVal l + (c.toNat - 48) := by
  simp [digitsVal, List.foldl_append]

theorem natCharsAux_all :
    ∀ (fuel n : Nat), ∀ c ∈ natCharsAux fuel n, c.isDigit = true := by
  intro fuel
  induction fuel with
  | zero => intro n c hc; cases hc
  | succ fuel ih =>
    intro n c hc
    cases n with
    | zero => cases hc
    | succ k =>
      simp only [natCharsAux] at hc
      rcases List.mem_append.mp hc with h1 | h1
      · exact ih _ c h1
      · have : c = Nat.digitChar ((k + 1) % 10) := by simpa using h1
        subst this
        exact digitChar_isDigit (Nat.mod_lt _ (by omega))

theorem natCharsAux_ne_nil {fuel n : Nat} (h0 : 0 < n) (hf : n ≤ fuel) :
    natCharsAux fuel n ≠ [] := by
  cases fuel with
  | zero => omega
  | succ f =>
    cases n with
    | zero => omega
    | succ k => simp [natCharsAux]

theorem digitsVal_natCharsAux :
    ∀ (fuel n : Nat), n ≤ fuel → digitsVal (natCharsAux fuel n) = n := by
  intro fuel
  induction fuel with
  | zero =>
    intro n hn
    have : n = 0 := by omega
    subst this
    rfl
  | succ fuel ih =>
    intro n hn
    cases n with
    | zero => rfl
    | succ k =>
      have hdiv : (k + 1) / 10 ≤ fuel := by
        have := Nat.div_lt_self (Nat.succ_pos k) (by omega : 1 < 10)
        omega
      simp only [natCharsAux]
      rw [digitsVal_append_singleton, ih _ hdiv,
        digitChar_val (Nat.mod_lt _ (by omega : 0 < 10))]
      omega

theorem digitsVal_natChars (n : Nat) : digitsVal (natChars n) = n := by
  by_cases h : n = 0
  · subst h; decide
  · unfold natChars
    rw [if_neg h]
    exact digitsVal_natCharsAux n n le_rfl

theorem natChars_ne_nil (n : Nat) : natChars n ≠ [] := by
  by_cases h : n = 0
  · subst h; decide
  · unfold natChars
    rw [if_neg h]
    exact natCharsAux_ne_nil (by omega) le_rfl

theorem natChars_all {n : Nat} : ∀ c ∈ natChars n, c.isDigit = true := by
  by_cases h : n = 0
  · subst h; intro c hc; simp [natChars] at hc; subst hc; decide
  · unfold natChars
    rw [if_neg h]
    exact natCharsAux_all n n

/-! ### Lookup and replacement facts -/

theorem mapLookup_mem {m : List (Int × Int)} {k v : Int} (h : mapLookup m k = some v) :
    (k, v) ∈ m := by
  induction m with
  | nil => cases h
  | cons p rest ih =>
    by_cases hp : p.1 = k
    · simp only [mapLookup, hp, if_pos] at h
      injection h with h2
      have hpe : p = (k, v) := by
        cases p
        simp_all
      exact hpe ▸ List.mem_cons_self p rest
    · simp only [mapLookup, hp, if_neg, false_and] at h
      exact List.mem_cons_of_mem _ (ih h)

theorem replace_issue_none {m : List (Int × Int)} {ds : List Char}
    (h : mapLookup m (digitsVal ds : Int) = none) :
    replace_issue m ds = ('#' :: ds, none) := by
  simp [replace_issue, h]

theorem replace_issue_self {m : List (Int × Int)} {ds : List Char}
    (h : mapLookup m (digitsVal ds : Int) = some (digitsVal ds : Int)) :
    replace_issue m ds = ('#' :: ds, none) := by
  simp [replace_issue, h]

theorem replace_issue_rw {m : List (Int × Int)} {ds : List Char} {nw : Int}
    (h : mapLookup m (digitsVal ds : Int) = some nw) (hne : (digitsVal ds : Int) ≠ nw) :
    replace_issue m ds = ('#' :: intChars nw, some ((digitsVal ds : Int), nw)) := by
  simp [replace_issue, h, hne]

theorem replace_issue_fst_head (m : List (Int × Int)) (ds : List Char) :
    (replace_issue m ds).1.head? = some '#' := by
  unfold replace_issue
  cases hl : mapLookup m (digitsVal ds : Int) with
  | none => rfl
  | some nw =>
    by_cases h : (digitsVal ds : Int) = nw <;> simp [h]

theorem replace_issue_snd {m : List (Int × Int)} {ds : List Char} {p : Int × Int}
    (h : (replace_issue m ds).2 = some p) :
    p.1 = (digitsVal ds : Int) ∧ mapLookup m p.1 = some p.2 ∧ p.1 ≠ p.2 := by
  unfold replace_issue at h
  cases hl : mapLookup m (digitsVal ds : Int) with
  | none => rw [hl] at h; cases h
  | some nw =>
    rw [hl] at h
    by_cases he : (digitsVal ds : Int) = nw
    · simp [he] at h
    · simp only [he, if_neg, if_false] at h
      injection h with h2
      subst h2
      exact ⟨rfl, hl, he⟩

theorem intChars_nonneg {n : Int} (h : 0 ≤ n) : intChars n = natChars n.toNat := by
  unfold intChars
  rw [if_neg (by omega)]

theorem intChars_neg {n : Int} (h : n < 0) : intChars n = '-' :: natChars n.natAbs := by
  unfold intChars
  rw [if_pos h]

theorem digitsVal_intChars {n : Int} (h : 0 ≤ n) : (digitsVal (intChars n) : Int) = n := by
  rw [intChars_nonneg h, digitsVal_natChars, Int.toNat_of_nonneg h]

theorem head?_append_left {α : Type} {a b : List α} {x : α} (h : a.head? = some x) :
    (a ++ b).head? = some x := by
  cases a with
  | nil => cases h
  | cons y t => simpa using h

theorem remapGo_head (m : List (Int × Int)) (l : List Char) :
    (remapGo m false l).1.head? = l.head? := by
  cases l with
  | nil => rfl
  | cons c cs =>
    by_cases hc : (c == '#') = true
    · have hce : c = '#' := beq_iff_eq.mp hc
      subst hce
      by_cases hm : (!(takeDigits cs).isEmpty && boundaryOk (dropDigits cs)) = true
      · simp only [remapGo, Bool.false_and, Bool.false_eq_true, if_false, hm, if_pos,
          beq_self_eq_true, if_true]
        exact head?_append_left (replace_issue_fst_head m (takeDigits cs))
      · simp only [remapGo, Bool.false_and, Bool.false_eq_true, if_false, hm,
          beq_self_eq_true, if_true]
        rfl
    · simp only [remapGo, Bool.false_and, Bool.false_eq_true, if_false, hc]
      rfl

theorem remapGo_mode (m : List (Int × Int)) {t : List Char} (h : headNonDigit t = true) :
    remapGo m true t = remapGo m false t := by
  cases t with
  | nil => rfl
  | cons c cs =>
    have hc : c.isDigit = false := by simpa [headNonDigit] using h
    simp only [remapGo, hc, Bool.and_false, Bool.false_and]

theorem remapGo_drop (m : List (Int × Int)) {ds t : List Char}
    (hds : ∀ c ∈ ds, c.isDigit = true) (ht : headNonDigit t = true) :
    remapGo m true (ds ++ t) = remapGo m false t := by
  induction ds with
  | nil => simpa using remapGo_mode m ht
  | cons d ds ih =>
    have hd : d.isDigit = true := hds d (by simp)
    simp only [List.cons_append, remapGo, hd, Bool.and_true, Bool.true_and, if_pos, if_true]
    exact ih (fun c hc => hds c (by simp [hc]))

theorem remapGo_copy (m : List (Int × Int)) {xs : List Char} (t : List Char)
    (hxs : ∀ c ∈ xs, (c == '#') = false) :
    remapGo m false (xs ++ t) = (xs ++ (remapGo m false t).1, (remapGo m false t).2) := by
  induction xs with
  | nil => simp
  | cons x xs ih =>
    have hx : (x == '#') = false := hxs x (by simp)
    have hrec := ih (fun c hc => hxs c (by simp [hc]))
    simp only [List.cons_append, remapGo, Bool.false_and, Bool.false_eq_true, if_false, hx,
      List.append_eq, hrec]

theorem filterMap_cons_toList {α β : Type} (f : α → Option β) (a : α) (l : List α) :
    List.filterMap f (a :: l) = (f a).toList ++ List.filterMap f l := by
  cases h : f a <;> simp [List.filterMap_cons, h]

theorem remapGo_eq_tokens (m : List (Int × Int)) :
    ∀ (l : List Char) (mode : Bool),
      remapGo m mode l =
        (((tokensGo mode l).map (renderTok m)).flatten,
          (tokensGo mode l).filterMap (chgTok m)) := by
  intro l
  induction l with
  | nil => intro mode; rfl
  | cons c cs ih =>
    intro mode
    by_cases h1 : (mode && c.isDigit) = true
    · simp only [remapGo, tokensGo, h1, if_pos, if_true]
      exact ih true
    · have h1f : (mode && c.isDigit) = false := by simpa using h1
      by_cases hc : (c == '#') = true
      · by_cases hm : (!(takeDigits cs).isEmpty && boundaryOk (dropDigits cs)) = true
        · simp only [remapGo, tokensGo, h1f, Bool.false_eq_true, if_false, hc, if_true,
            hm, if_pos, List.map_cons, List.flatten_cons, filterMap_cons_toList,
            renderTok, chgTok, ih true]
        · have hmf : (!(takeDigits cs).isEmpty && boundaryOk (dropDigits cs)) = false := by
            simpa using hm
          simp only [remapGo, tokensGo, h1f, Bool.false_eq_true, if_false, hc, if_true,
            hmf, List.map_cons, List.flatten_cons, filterMap_cons_toList,
            renderTok, chgTok, Option.toList_none, List.nil_append, List.singleton_append,
            ih false]
      · have hcf : (c == '#') = false := by simpa using hc
        simp only [remapGo, tokensGo, h1f, Bool.false_eq_true, if_false, hcf,
          List.map_cons, List.flatten_cons, filterMap_cons_toList,
          renderTok, chgTok, Option.toList_none, List.nil_append, List.singleton_append,
          ih false]

theorem tokensGo_text :
    ∀ (l : List Char) (mode : Bool),
      ((tokensGo mode l).map tokText).flatten = if mode = true then dropDigits l else l := by
  intro l
  induction l with
  | nil => intro mode; cases mode <;> rfl
  | cons c cs ih =>
    intro mode
    by_cases h1 : (mode && c.isDigit) = true
    · have hmode : mode = true := by
        cases mode
        · simp at h1
        · rfl
      have hd : c.isDigit = true := by
        cases hcd : c.isDigit
        · rw [hcd] at h1; simp at h1
        · rfl
      subst hmode
      have htk : tokensGo true (c :: cs) = tokensGo true cs := by
        simp [tokensGo, h1]
      rw [htk, ih true, if_pos rfl, if_pos rfl]
      simp [dropDigits, hd]
    · have h1f : (mode && c.isDigit) = false := by simpa using h1
      by_cases hc : (c == '#') = true
      · have hce : c = '#' := beq_iff_eq.mp hc
        subst hce
        by_cases hm : (!(takeDigits cs).isEmpty && boundaryOk (dropDigits cs)) = true
        · have htk : tokensGo mode ('#' :: cs) = Tok.ref (takeDigits cs) :: tokensGo true cs := by
            simp [tokensGo, h1f, hm]
          rw [htk]
          simp only [List.map_cons, List.flatten_cons, tokText]
          rw [ih true]
          cases mode
          · simp [takeDigits_append_dropDigits]
          · have hds : ('#').isDigit = false := by decide
            simp [takeDigits_append_dropDigits, dropDigits, hds]
        · have hmf : (!(takeDigits cs).isEmpty && boundaryOk (dropDigits cs)) = false := by
            simpa using hm
          have htk : tokensGo mode ('#' :: cs) = Tok.lit '#' :: tokensGo false cs := by
            simp [tokensGo, h1f, hmf]
          rw [htk]
          simp only [List.map_cons, List.flatten_cons, tokText]
          rw [ih false]
          cases mode
          · simp
          · have hds : ('#').isDigit = false := by decide
            simp [dropDigits, hds]
      · have hcf : (c == '#') = false := by simpa using hc
        have htk : tokensGo mode (c :: cs) = Tok.lit c :: tokensGo false cs := by
          simp [tokensGo, h1f, hcf]
        rw [htk]
        simp only [List.map_cons, List.flatten_cons, tokText]
        rw [ih false]
        cases mode
        · simp
        · have hcd : c.isDigit = false := by
            rw [Bool.true_and] at h1f
            exact h1f
          simp [dropDigits, hcd]

theorem findRefsGo_eq_tokens :
    ∀ (l : List Char) (mode : Bool),
      findRefsGo mode l = (tokensGo mode l).filterMap refVal := by
  intro l
  induction l with
  | nil => intro mode; rfl
  | cons c cs ih =>
    intro mode
    by_cases h1 : (mode && c.isDigit) = true
    · simp only [findRefsGo, tokensGo, h1, if_pos, if_true]
      exact ih true
    · have h1f : (mode && c.isDigit) = false := by simpa using h1
      by_cases hc : (c == '#') = true
      · by_cases hm : (!(takeDigits cs).isEmpty && boundaryOk (dropDigits cs)) = true
        · simp only [findRefsGo, tokensGo, h1f, Bool.false_eq_true, if_false, hc, if_true,
            hm, if_pos, List.filterMap_cons, refVal, ih true]
        · have hmf : (!(takeDigits cs).isEmpty && boundaryOk (dropDigits cs)) = false := by
            simpa using hm
          simp only [findRefsGo, tokensGo, h1f, Bool.false_eq_true, if_false, hc, if_true,
            hmf, List.filterMap_cons, refVal, ih false]
      · have hcf : (c == '#') = false := by simpa using hc
        simp only [findRefsGo, tokensGo, h1f, Bool.false_eq_true, if_false, hcf,
          List.filterMap_cons, refVal, ih false]

theorem remapGo_lit (m : List (Int × Int)) {c : Char} (hc : (c == '#') = false)
    (cs : List Char) :
    remapGo m false (c :: cs) = (c :: (remapGo m false cs).1, (remapGo m false cs).2) := by
  simp only [remapGo, Bool.false_and, Bool.false_eq_true, if_false, hc]

theorem remapGo_hash_nomatch (m : List (Int × Int)) {t : List Char}
    (h : (!(takeDigits t).isEmpty && boundaryOk (dropDigits t)) = false) :
    remapGo m false ('#' :: t) = ('#' :: (remapGo m false t).1, (remapGo m false t).2) := by
  simp only [remapGo, Bool.false_and, Bool.false_eq_true, if_false, beq_self_eq_true,
    if_true, h]

theorem remapGo_hash_match (m : List (Int × Int)) {es X : List Char}
    (hne : es ≠ []) (hds : ∀ c ∈ es, c.isDigit = true)
    (hX : headNonDigit X = true) (hb : boundaryOk X = true) :
    remapGo m false ('#' :: (es ++ X)) =
      ((replace_issue m es).1 ++ (remapGo m false X).1,
        (replace_issue m es).2.toList ++ (remapGo m false X).2) := by
  have ht : takeDigits (es ++ X) = es := takeDigits_append hds hX
  have hd : dropDigits (es ++ X) = X := dropDigits_append hds hX
  have hee : es.isEmpty = false := by
    cases es
    · exact absurd rfl hne
    · rfl
  have hcond : (!(takeDigits (es ++ X)).isEmpty && boundaryOk (dropDigits (es ++ X))) = true := by
    rw [ht, hd, hb, hee]
    rfl
  have hdrop : remapGo m true (es ++ X) = remapGo m false X := remapGo_drop m hds hX
  simp only [remapGo, Bool.false_and, Bool.false_eq_true, if_false, beq_self_eq_true, if_true,
    ht, hd, hb, hee, Bool.not_false, Bool.and_self, if_pos, hdrop]

theorem remapGo_idem_aux (m : List (Int × Int))
    (hm : ∀ p ∈ m, p.1 ≠ p.2 →
      mapLookup m p.2 = none ∨ mapLookup m p.2 = some p.2) :
    ∀ (k : Nat) (l : List Char), l.length ≤ k →
      remapGo m false (remapGo m false l).1 = ((remapGo m false l).1, []) := by
  intro k
  induction k with
  | zero =>
    intro l hl
    have hnil : l = [] := List.length_eq_zero.mp (Nat.le_zero.mp hl)
    subst hnil
    rfl
  | succ k ih =>
    intro l hl
    cases l with
    | nil => rfl
    | cons c cs =>
      have hcs : cs.length ≤ k := by simpa using hl
      by_cases hc : (c == '#') = true
      case neg =>
        have hcf : (c == '#') = false := by simpa using hc
        rw [remapGo_lit m hcf cs, remapGo_lit m hcf ((remapGo m false cs).1), ih cs hcs]
      case pos =>
        have hce : c = '#' := beq_iff_eq.mp hc
        subst hce
        have hsplit : takeDigits cs ++ dropDigits cs = cs := takeDigits_append_dropDigits cs
        have hds : ∀ d ∈ takeDigits cs, d.isDigit = true := takeDigits_all
        have hrnd : headNonDigit (dropDigits cs) = true := headNonDigit_dropDigits cs
        have hrlen : (dropDigits cs).length ≤ k := le_trans (dropDigits_length cs) hcs
        have hheadX : (remapGo m false (dropDigits cs)).1.head? = (dropDigits cs).head? :=
          remapGo_head m (dropDigits cs)
        by_cases hmm : (!(takeDigits cs).isEmpty && boundaryOk (dropDigits cs)) = true
        · -- the first pass matched here
          have hne : takeDigits cs ≠ [] := by
            intro hnil
            rw [hnil] at hmm
            simp at hmm
          have hb : boundaryOk (dropDigits cs) = true := by
            rcases Bool.and_eq_true_iff.mp hmm with ⟨h1, h2⟩
            exact h2
          have hXnd : headNonDigit (remapGo m false (dropDigits cs)).1 = true := by
            rw [headNonDigit_eq_of_head? hheadX]
            exact hrnd
          have hXb : boundaryOk (remapGo m false (dropDigits cs)).1 = true := by
            rw [boundaryOk_eq_of_head? hheadX]
            exact hb
          have hfirst : remapGo m false ('#' :: cs) =
              ((replace_issue m (takeDigits cs)).1 ++ (remapGo m false (dropDigits cs)).1,
                (replace_issue m (takeDigits cs)).2.toList ++
                  (remapGo m false (dropDigits cs)).2) := by
            conv_lhs => rw [← hsplit]
            exact remapGo_hash_match m hne hds hrnd hb
          rw [hfirst]
          cases hL : mapLookup m (digitsVal (takeDigits cs) : Int) with
          | none =>
            have hrp : replace_issue m (takeDigits cs) = ('#' :: takeDigits cs, none) :=
              replace_issue_none hL
            rw [hrp]
            simp only [List.cons_append]
            rw [remapGo_hash_match m hne hds hXnd hXb, ih (dropDigits cs) hrlen, hrp]
            simp
          | some nw =>
            by_cases heq : (digitsVal (takeDigits cs) : Int) = nw
            · have hrp : replace_issue m (takeDigits cs) = ('#' :: takeDigits cs, none) :=
                replace_issue_self (heq ▸ hL)
              rw [hrp]
              simp only [List.cons_append]
              rw [remapGo_hash_match m hne hds hXnd hXb, ih (dropDigits cs) hrlen, hrp]
              simp
            · have hrp : replace_issue m (takeDigits cs) =
                  ('#' :: intChars nw, some ((digitsVal (takeDigits cs) : Int), nw)) :=
                replace_issue_rw hL heq
              have hchain : mapLookup m nw = none ∨ mapLookup m nw = some nw :=
                hm _ (mapLookup_mem hL) heq
              rw [hrp]
              by_cases hnn : 0 ≤ nw
              · -- nonnegative replacement value: re-tokenised on the second pass
                have hch : intChars nw = natChars nw.toNat := intChars_nonneg hnn
                have hncd : ∀ d ∈ intChars nw, d.isDigit = true := by
                  rw [hch]
                  exact fun d hd => natChars_all d hd
                have hncne : intChars nw ≠ [] := by
                  rw [hch]
                  exact natChars_ne_nil _
                have hval : (digitsVal (intChars nw) : Int) = nw := digitsVal_intChars hnn
                have hrp2 : replace_issue m (intChars nw) = ('#' :: intChars nw, none) := by
                  rcases hchain with h2 | h2
                  · exact replace_issue_none (by rw [hval]; exact h2)
                  · exact replace_issue_self (by rw [hval]; exact h2)
                simp only [List.cons_append]
                rw [remapGo_hash_match m hncne hncd hXnd hXb, ih (dropDigits cs) hrlen, hrp2]
                simp
              · -- negative replacement value: "#-5" no longer matches the pattern
                have hneg : nw < 0 := by omega
                have hch : intChars nw = '-' :: natChars nw.natAbs := intChars_neg hneg
                rw [hch]
                simp only [List.cons_append]
                have htf : takeDigits ('-' :: (natChars nw.natAbs ++
                    (remapGo m false (dropDigits cs)).1)) = [] := by
                  simp [takeDigits]
                have hcnd : (!(takeDigits ('-' :: (natChars nw.natAbs ++
                    (remapGo m false (dropDigits cs)).1))).isEmpty &&
                    boundaryOk (dropDigits ('-' :: (natChars nw.natAbs ++
                      (remapGo m false (dropDigits cs)).1)))) = false := by
                  rw [htf]
                  rfl
                rw [remapGo_hash_nomatch m hcnd]
                rw [remapGo_lit m (by decide) _]
                rw [remapGo_copy m _ (fun d hd => digit_ne_hash (natChars_all d hd))]
                rw [ih (dropDigits cs) hrlen]
              -- end rewrite case
        · -- the first pass found no match at this '#'
          have hmf : (!(takeDigits cs).isEmpty && boundaryOk (dropDigits cs)) = false := by
            simpa using hmm
          have hfirst : remapGo m false ('#' :: cs) =
              ('#' :: (remapGo m false cs).1, (remapGo m false cs).2) :=
            remapGo_hash_nomatch m hmf
          rw [hfirst]
          by_cases htk : takeDigits cs = []
          · -- no digits follow the '#'
            have hcnd : headNonDigit cs = true := takeDigits_eq_nil_iff.mp htk
            have hY : (remapGo m false cs).1.head? = cs.head? := remapGo_head m cs
            have hYnd : headNonDigit (remapGo m false cs).1 = true := by
              rw [headNonDigit_eq_of_head? hY]
              exact hcnd
            have htk2 : takeDigits (remapGo m false cs).1 = [] :=
              takeDigits_eq_nil_iff.mpr hYnd
            have hcnd2 : (!(takeDigits (remapGo m false cs).1).isEmpty &&
                boundaryOk (dropDigits (remapGo m false cs).1)) = false := by
              rw [htk2]
              rfl
            rw [remapGo_hash_nomatch m hcnd2, ih cs hcs]
          · -- digits follow but the word boundary fails
            have hbf : boundaryOk (dropDigits cs) = false := by
              cases hbv : boundaryOk (dropDigits cs)
              · rfl
              · exfalso
                have hee : (takeDigits cs).isEmpty = false := by
                  cases hv : takeDigits cs
                  · exact absurd hv htk
                  · rfl
                rw [hee, hbv] at hmf
                simp at hmf
            obtain ⟨w, r, hwr, hww⟩ := boundaryOk_false hbf
            have hwd : w.isDigit = false := by
              rw [hwr] at hrnd
              simpa [headNonDigit] using hrnd
            have hwh : (w == '#') = false := word_ne_hash hww
            have hrlen2 : r.length ≤ k := by
              have h1 : (dropDigits cs).length ≤ cs.length := dropDigits_length cs
              rw [hwr] at h1
              simp at h1
              omega
            have hYrw : (remapGo m false cs).1 =
                takeDigits cs ++ (w :: (remapGo m false r).1) := by
              conv_lhs => rw [← hsplit, hwr]
              rw [remapGo_copy m _ (fun d hd => digit_ne_hash (hds d hd)),
                remapGo_lit m hwh r]
            rw [hYrw]
            have hwnd : headNonDigit (w :: (remapGo m false r).1) = true := by
              simp [headNonDigit, hwd]
            have htk3 : takeDigits (takeDigits cs ++ (w :: (remapGo m false r).1)) =
                takeDigits cs := takeDigits_append hds hwnd
            have hdd3 : dropDigits (takeDigits cs ++ (w :: (remapGo m false r).1)) =
                w :: (remapGo m false r).1 := dropDigits_append hds hwnd
            have hcnd3 : (!(takeDigits (takeDigits cs ++ (w :: (remapGo m false r).1))).isEmpty &&
                boundaryOk (dropDigits (takeDigits cs ++ (w :: (remapGo m false r).1)))) = false := by
              rw [htk3, hdd3]
              have : boundaryOk (w :: (remapGo m false r).1) = false := by
                simp [boundaryOk, hww]
              rw [this]
              simp
            rw [remapGo_hash_nomatch m hcnd3]
            rw [remapGo_copy m _ (fun d hd => digit_ne_hash (hds d hd)),
              remapGo_lit m hwh, ih r hrlen2]

theorem replace_issue_none_fst {m : List (Int × Int)} {ds : List Char}
    (h : (replace_issue m ds).2 = none) : (replace_issue m ds).1 = '#' :: ds := by
  unfold replace_issue at h ⊢
  cases hl : mapLookup m (digitsVal ds : Int) with
  | none => rfl
  | some nw =>
    rw [hl] at h
    by_cases he : (digitsVal ds : Int) = nw
    · simp [he]
    · simp [he] at h

theorem remapGo_no_changes (m : List (Int × Int)) :
    ∀ (k : Nat) (l : List Char), l.length ≤ k →
      (remapGo m false l).2 = [] → (remapGo m false l).1 = l := by
  intro k
  induction k with
  | zero =>
    intro l hl hch
    have hnil : l = [] := List.length_eq_zero.mp (Nat.le_zero.mp hl)
    subst hnil
    rfl
  | succ k ih =>
    intro l hl hch
    cases l with
    | nil => rfl
    | cons c cs =>
      have hcs : cs.length ≤ k := by simpa using hl
      by_cases hc : (c == '#') = true
      case neg =>
        have hcf : (c == '#') = false := by simpa using hc
        rw [remapGo_lit m hcf cs] at hch ⊢
        simp only at hch ⊢
        rw [ih cs hcs hch]
      case pos =>
        have hce : c = '#' := beq_iff_eq.mp hc
        subst hce
        have hsplit : takeDigits cs ++ dropDigits cs = cs := takeDigits_append_dropDigits cs
        have hds : ∀ d ∈ takeDigits cs, d.isDigit = true := takeDigits_all
        have hrnd : headNonDigit (dropDigits cs) = true := headNonDigit_dropDigits cs
        have hrlen : (dropDigits cs).length ≤ k := le_trans (dropDigits_length cs) hcs
        by_cases hmm : (!(takeDigits cs).isEmpty && boundaryOk (dropDigits cs)) = true
        · have hne : takeDigits cs ≠ [] := by
            intro hnil
            rw [hnil] at hmm
            simp at hmm
          have hb : boundaryOk (dropDigits cs) = true :=
            (Bool.and_eq_true_iff.mp hmm).2
          have hfirst : remapGo m false ('#' :: cs) =
              ((replace_issue m (takeDigits cs)).1 ++ (remapGo m false (dropDigits cs)).1,
                (replace_issue m (takeDigits cs)).2.toList ++
                  (remapGo m false (dropDigits cs)).2) := by
            conv_lhs => rw [← hsplit]
            exact remapGo_hash_match m hne hds hrnd hb
          rw [hfirst] at hch ⊢
          simp only [List.append_eq_nil] at hch
          obtain ⟨hch1, hch2⟩ := hch
          have hrp2 : (replace_issue m (takeDigits cs)).2 = none := by
            cases hv : (replace_issue m (takeDigits cs)).2
            · rfl
            · rw [hv] at hch1; cases hch1
          rw [replace_issue_none_fst hrp2]
          simp only
          rw [ih (dropDigits cs) hrlen hch2, List.cons_append, hsplit]
        · have hmf : (!(takeDigits cs).isEmpty && boundaryOk (dropDigits cs)) = false := by
            simpa using hmm
          rw [remapGo_hash_nomatch m hmf] at hch ⊢
          simp only at hch ⊢
          rw [ih cs hcs hch]

theorem remapGo_changes_ne_nil (m : List (Int × Int)) :
    ∀ (k : Nat) (l : List Char), l.length ≤ k →
      (remapGo m false l).2 ≠ [] → (remapGo m false l).1 ≠ l := by
  intro k
  induction k with
  | zero =>
    intro l hl hch
    have hnil : l = [] := List.length_eq_zero.mp (Nat.le_zero.mp hl)
    subst hnil
    exact absurd rfl hch
  | succ k ih =>
    intro l hl hch
    cases l with
    | nil => exact absurd rfl hch
    | cons c cs =>
      have hcs : cs.length ≤ k := by simpa using hl
      by_cases hc : (c == '#') = true
      case neg =>
        have hcf : (c == '#') = false := by simpa using hc
        rw [remapGo_lit m hcf cs] at hch ⊢
        simp only at hch ⊢
        intro heq
        injection heq with h1 h2
        exact ih cs hcs hch h2
      case pos =>
        have hce : c = '#' := beq_iff_eq.mp hc
        subst hce
        have hsplit : takeDigits cs ++ dropDigits cs = cs := takeDigits_append_dropDigits cs
        have hds : ∀ d ∈ takeDigits cs, d.isDigit = true := takeDigits_all
        have hrnd : headNonDigit (dropDigits cs) = true := headNonDigit_dropDigits cs
        have hrlen : (dropDigits cs).length ≤ k := le_trans (dropDigits_length cs) hcs
        have hheadX : (remapGo m false (dropDigits cs)).1.head? = (dropDigits cs).head? :=
          remapGo_head m (dropDigits cs)
        by_cases hmm : (!(takeDigits cs).isEmpty && boundaryOk (dropDigits cs)) = true
        · have hne : takeDigits cs ≠ [] := by
            intro hnil
            rw [hnil] at hmm
            simp at hmm
          have hb : boundaryOk (dropDigits cs) = true :=
            (Bool.and_eq_true_iff.mp hmm).2
          have hXnd : headNonDigit (remapGo m false (dropDigits cs)).1 = true := by
            rw [headNonDigit_eq_of_head? hheadX]
            exact hrnd
          have hfirst : remapGo m false ('#' :: cs) =
              ((replace_issue m (takeDigits cs)).1 ++ (remapGo m false (dropDigits cs)).1,
                (replace_issue m (takeDigits cs)).2.toList ++
                  (remapGo m false (dropDigits cs)).2) := by
            conv_lhs => rw [← hsplit]
            exact remapGo_hash_match m hne hds hrnd hb
          rw [hfirst] at hch ⊢
          simp only at hch ⊢
          cases hL : mapLookup m (digitsVal (takeDigits cs) : Int) with
          | none =>
            have hrp : replace_issue m (takeDigits cs) = ('#' :: takeDigits cs, none) :=
              replace_issue_none hL
            rw [hrp] at hch ⊢
            simp only [Option.toList_none, List.nil_append] at hch ⊢
            intro heq
            apply ih (dropDigits cs) hrlen hch
            have heq2 : ('#' :: takeDigits cs) ++ (remapGo m false (dropDigits cs)).1 =
                ('#' :: takeDigits cs) ++ dropDigits cs := by
              rw [heq, List.cons_append, hsplit]
            exact List.append_cancel_left heq2
          | some nw =>
            by_cases heq0 : (digitsVal (takeDigits cs) : Int) = nw
            · have hrp : replace_issue m (takeDigits cs) = ('#' :: takeDigits cs, none) :=
                replace_issue_self (heq0 ▸ hL)
              rw [hrp] at hch ⊢
              simp only [Option.toList_none, List.nil_append] at hch ⊢
              intro heq
              apply ih (dropDigits cs) hrlen hch
              have heq2 : ('#' :: takeDigits cs) ++ (remapGo m false (dropDigits cs)).1 =
                  ('#' :: takeDigits cs) ++ dropDigits cs := by
                rw [heq, List.cons_append, hsplit]
              exact List.append_cancel_left heq2
            · -- a rewrite happened: the new digits differ from the old ones
              have hrp : replace_issue m (takeDigits cs) =
                  ('#' :: intChars nw, some ((digitsVal (takeDigits cs) : Int), nw)) :=
                replace_issue_rw hL heq0
              rw [hrp]
              simp only [List.cons_append]
              intro heq
              injection heq with h1 h2
              have h3 : intChars nw ++ (remapGo m false (dropDigits cs)).1 =
                  takeDigits cs ++ dropDigits cs := by
                rw [hsplit]
                exact h2
              by_cases hnn : 0 ≤ nw
              · have hncd : ∀ d ∈ intChars nw, d.isDigit = true := by
                  rw [intChars_nonneg hnn]
                  exact fun d hd => natChars_all d hd
                have hncne : intChars nw ≠ [] := by
                  rw [intChars_nonneg hnn]
                  exact natChars_ne_nil _
                have hval : (digitsVal (intChars nw) : Int) = nw := digitsVal_intChars hnn
                have hnceq : intChars nw ≠ takeDigits cs := by
                  intro hv
                  rw [hv] at hval
                  exact heq0 hval
                rcases List.append_eq_append_iff.mp h3 with ⟨a2, ha2, hX2⟩ | ⟨c2, hc2, hr2⟩
                · -- takeDigits cs = intChars nw ++ a2
                  cases a2 with
                  | nil =>
                    rw [List.append_nil] at ha2
                    exact hnceq ha2.symm
                  | cons d a3 =>
                    have hdmem : d ∈ takeDigits cs := by
                      rw [ha2]
                      exact List.mem_append.mpr (Or.inr (by simp))
                    have hdd : d.isDigit = true := hds d hdmem
                    have hXnd2 : headNonDigit (remapGo m false (dropDigits cs)).1 = true := hXnd
                    rw [hX2] at hXnd2
                    simp [headNonDigit, hdd] at hXnd2
                · -- intChars nw = takeDigits cs ++ c2
                  cases c2 with
                  | nil =>
                    rw [List.append_nil] at hc2
                    exact hnceq hc2
                  | cons e c3 =>
                    have hemem : e ∈ intChars nw := by
                      rw [hc2]
                      exact List.mem_append.mpr (Or.inr (by simp))
                    have hed : e.isDigit = true := hncd e hemem
                    have hrnd2 := hrnd
                    rw [hr2] at hrnd2
                    simp [headNonDigit, hed] at hrnd2
              · -- negative value: the rewritten text starts with a minus sign
                have hneg : nw < 0 := by omega
                rw [intChars_neg hneg] at h3
                cases hv : takeDigits cs with
                | nil => exact hne hv
                | cons d ds2 =>
                  have hdd : d.isDigit = true := hds d (by rw [hv]; simp)
                  rw [hv] at h3
                  have hhead := congrArg List.head? h3
                  simp at hhead
                  rw [← hhead] at hdd
                  exact absurd hdd (by decide)
        · have hmf : (!(takeDigits cs).isEmpty && boundaryOk (dropDigits cs)) = false := by
            simpa using hmm
          rw [remapGo_hash_nomatch m hmf] at hch ⊢
          simp only at hch ⊢
          intro heq
          injection heq with h1 h2
          exact ih cs hcs hch h2

theorem remap_changes_ne_vals (m : List (Int × Int)) (l : List Char) :
    ∀ p ∈ (remapGo m false l).2, p.1 ≠ p.2 := by
  intro p hp
  rw [remapGo_eq_tokens m l false] at hp
  rcases List.mem_filterMap.mp hp with ⟨tok, htok, hchg⟩
  cases tok with
  | lit c => cases hchg
  | ref ds =>
    simp only [chgTok] at hchg
    exact (replace_issue_snd hchg).2.2

theorem remap_changes_sources (m : List (Int × Int)) (l : List Char) :
    ∀ p ∈ (remapGo m false l).2,
      mapLookup m p.1 = some p.2 ∧ p.1 ∈ findRefsGo false l := by
  intro p hp
  rw [remapGo_eq_tokens m l false] at hp
  rcases List.mem_filterMap.mp hp with ⟨tok, htok, hchg⟩
  cases tok with
  | lit c => cases hchg
  | ref ds =>
    simp only [chgTok] at hchg
    obtain ⟨h1, h2, h3⟩ := replace_issue_snd hchg
    refine ⟨h2, ?_⟩
    rw [findRefsGo_eq_tokens l false]
    exact List.mem_filterMap.mpr ⟨Tok.ref ds, htok, by simp [refVal, h1]⟩

theorem processLines_fst (m : List (Int × Int)) :
    ∀ (n : Nat) (lines : List (List Char)),
      (processLines m n lines).1 = lines.map (fun l => (remap_line m l).1) := by
  intro n lines
  induction lines generalizing n with
  | nil => rfl
  | cons l ls ih => simp [processLines, ih]

theorem processLines_forall2 (m : List (Int × Int)) :
    ∀ (n : Nat) (lines : List (List Char)),
      List.Forall₂ (fun a b => b = ((lineTokens a).map (renderTok m)).flatten)
        lines (processLines m n lines).1 := by
  intro n lines
  induction lines generalizing n with
  | nil => exact List.Forall₂.nil
  | cons l ls ih =>
    exact List.Forall₂.cons (congrArg Prod.fst (remapGo_eq_tokens m l false)) (ih (n + 1))

theorem process_file_zero {m : List (Int × Int)} {lines : List (List Char)}
    (h : (processLines m 1 lines).2.1 = 0) (dr w : Bool) :
    process_file m lines dr w = ((false, 0), none, []) := by
  simp [process_file, h]

theorem process_file_write_fail_changed (m : List (Int × Int)) (lines : List (List Char)) :
    (process_file m lines false false).1.1 = false := by
  by_cases h : (processLines m 1 lines).2.1 = 0 <;> simp [process_file, h]

theorem mainStep_id {m : List (Int × Int)} {dr : Bool} {f : List (List Char) × Bool}
    (h : (process_file m f.1 dr f.2).1.1 = false) :
    ∀ acc, mainStep m dr acc f = acc := by
  intro acc
  simp [mainStep, h]

theorem mainAccum_skip (m : List (Int × Int)) (dr : Bool)
    (files1 files2 : List (List (List Char) × Bool)) (f : List (List Char) × Bool)
    (h : ∀ acc, mainStep m dr acc f = acc) :
    mainAccum m dr (files1 ++ f :: files2) = mainAccum m dr (files1 ++ files2) := by
  unfold mainAccum
  rw [List.foldl_append, List.foldl_append, List.foldl_cons, h]

theorem load_mapping_cons (kv : String × JValue) (rest : List (String × JValue)) :
    load_mapping (kv :: rest) =
      (pyIntOfString kv.1).bind (fun k => (load_mapping rest).map (fun r => (k, kv.2) :: r)) := by
  cases hk : pyIntOfString kv.1 <;> cases hr : load_mapping rest <;>
    simp [load_mapping, hk, hr]

theorem load_mapping_isSome :
    ∀ ms : List (String × JValue),
      (load_mapping ms).isSome = true ↔ ∀ p ∈ ms, (pyIntOfString p.1).isSome = true := by
  intro ms
  induction ms with
  | nil => simp [load_mapping]
  | cons kv rest ih =>
    constructor
    · intro hs p hp
      have hk : (pyIntOfString kv.1).isSome = true := by
        cases hkv : pyIntOfString kv.1 with
        | none =>
          rw [load_mapping_cons, hkv] at hs
          simp at hs
        | some k => rfl
      have hrs : (load_mapping rest).isSome = true := by
        cases hkv : pyIntOfString kv.1 with
        | none => rw [hkv] at hk; simp at hk
        | some k =>
          cases hrr : load_mapping rest with
          | none =>
            rw [load_mapping_cons, hkv, hrr] at hs
            simp at hs
          | some r => rfl
      rcases List.mem_cons.mp hp with hpe | hp2
      · rw [hpe]
        exact hk
      · exact ih.mp hrs p hp2
    · intro hall
      have hk : (pyIntOfString kv.1).isSome = true := hall kv (by simp)
      have hrs : (load_mapping rest).isSome = true :=
        ih.mpr (fun p hp => hall p (List.mem_cons_of_mem _ hp))
      rw [load_mapping_cons]
      cases hkv : pyIntOfString kv.1 with
      | none => rw [hkv] at hk; simp at hk
      | some k =>
        cases hrr : load_mapping rest with
        | none => rw [hrr] at hrs; simp at hrs
        | some r => simp

/-! ### Claim theorems -/

/-- C1: `remap_line` factors through a mapping-independent tokenisation of
the line: the tokens reassemble to the original line (so all non-token
text is byte-identical), each reference token is rewritten independently
by `replace_issue` — i.e. rewritten to `#M[n]` iff `n` is a key of `M`
with `M[n] ≠ n`, otherwise kept byte-identical — and exactly the
rewritten tokens contribute one `(n, M[n])` change record each.  In
particular the mapping `{10: 50, 20: 20}` rewrites
`See #10 and #20 and #30.` to `See #50 and #20 and #30.` with exactly
one change record `(10, 50)`. -/
theorem remap_line_token_spec (m : List (Int × Int)) (l : List Char) :
    ((lineTokens l).map tokText).flatten = l ∧
    remap_line m l =
      (((lineTokens l).map (renderTok m)).flatten,
        (lineTokens l).filterMap (chgTok m)) ∧
    remap_line [((10 : Int), 50), (20, 20)] (("See #10 and #20 and #30.").toList) =
      (("See #50 and #20 and #30.").toList, [(10, 50)]) :=
  ⟨by simpa [lineTokens] using tokensGo_text l false,
    remapGo_eq_tokens m l false,
    by decide⟩

/-- C2 counterexample: with mapping `{10: 50}` and a single file `#10`
whose write fails, `process_file` returns `(changed, num_changes) =
(False, 1)`, and the run-level summary of `main` is `(0, 0)`: the
attempted change count 1 is NOT added to the total-changes summary
counter, contrary to the claim. -/
theorem write_fail_summary_zero :
    (process_file [((10 : Int), 50)] [("#10\n").toList] false false).1 = (false, 1) ∧
    mainAccum [((10 : Int), 50)] false [([("#10\n").toList], false)] = (0, 0) := by
  constructor
  · decide
  · decide

/-- C2 (amended): when a write fails after changes were computed
(not dry-run), `process_file` still returns the attempted change count
(with `changed = false`), prints the report, and persists nothing; but
because `changed` is false, `main` adds neither the file nor its
attempted change count to the summary counters. -/
theorem write_fail_attempted_count (m : List (Int × Int)) (lines : List (List Char))
    (h : (processLines m 1 lines).2.1 ≠ 0) :
    (process_file m lines false false).1 = (false, (processLines m 1 lines).2.1) ∧
    (process_file m lines false false).2.1 = none ∧
    (process_file m lines false false).2.2 = (processLines m 1 lines).2.2 ∧
    ∀ pre post : List (List (List Char) × Bool),
      mainAccum m false (pre ++ (lines, false) :: post) = mainAccum m false (pre ++ post) := by
  refine ⟨by simp [process_file, h], by simp [process_file, h], by simp [process_file, h], ?_⟩
  intro pre post
  exact mainAccum_skip m false pre post (lines, false)
    (mainStep_id (process_file_write_fail_changed m lines))

/-- C2 witness: the amended statement applied to the concrete
write-failure run of the counterexample. -/
theorem write_fail_attempted_count_w :
    mainAccum [((10 : Int), 50)] false ([] ++ ([("#10\n").toList], false) :: []) =
      mainAccum [((10 : Int), 50)] false ([] ++ []) :=
  (write_fail_attempted_count [((10 : Int), 50)] [("#10\n").toList] (by decide)).2.2.2 [] []

/-- C3 counterexample: a `mappings` object whose value is the JSON
string `"abc"` — not representable as an integer — loads successfully:
`load_mapping` converts only the keys and passes the value through, so
the load is not a fatal error, contrary to the claim. -/
theorem load_mapping_nonint_value_ok :
    load_mapping [(("10"), JValue.str ("abc"))] =
      some [((10 : Int), JValue.str ("abc"))] := by
  decide

/-- C3 (amended): `load_mapping` succeeds iff every KEY of the
`mappings` object parses as an integer (`int(k)`); the values are never
examined, so a non-integer value is not a load error. -/
theorem load_mapping_success_iff_keys (ms : List (String × JValue)) :
    (load_mapping ms).isSome = true ↔ ∀ p ∈ ms, (pyIntOfString p.1).isSome = true :=
  load_mapping_isSome ms

/-- C3 witness: a well-formed mapping loads. -/
theorem load_mapping_success_iff_keys_w :
    (load_mapping [(("10"), JValue.int 50)]).isSome = true :=
  (load_mapping_success_iff_keys [(("10"), JValue.int 50)]).mpr (by decide)

/-- C4 counterexample: with the chained mapping `{10: 20, 20: 30}`,
rewriting `#10` gives `#20`, and a second application of the same
mapping rewrites again, producing the change record `(20, 30)`:
rewriting is NOT idempotent for every mapping, contrary to the claim. -/
theorem remap_twice_changes :
    (remap_line [((10 : Int), 20), (20, 30)]
        (remap_line [((10 : Int), 20), (20, 30)] (("#10").toList)).1).2 = [(20, 30)] := by
  decide

/-- C4 (amended): applying `remap_line` a second time with the same
mapping produces no changes, PROVIDED the mapping contains no chain:
every pair `(a, b)` of the mapping with `b ≠ a` has `b` either absent
from the mapping or mapped to itself.  (The unconditional claim fails
when old and new number spaces overlap, as the counterexample shows.) -/
theorem remap_line_idempotent (m : List (Int × Int))
    (hm : ∀ p ∈ m, p.1 ≠ p.2 → mapLookup m p.2 = none ∨ mapLookup m p.2 = some p.2)
    (l : List Char) :
    remap_line m (remap_line m l).1 = ((remap_line m l).1, []) :=
  remapGo_idem_aux m hm l.length l le_rfl

/-- C4 witness: the chain-free mapping `{10: 50}` on `#10`. -/
theorem remap_line_idempotent_w :
    remap_line [((10 : Int), 50)] (remap_line [((10 : Int), 50)] (("#10").toList)).1 =
      ((remap_line [((10 : Int), 50)] (("#10").toList)).1, []) :=
  remap_line_idempotent [((10 : Int), 50)] (by decide) (("#10").toList)

/-- C5: trailing word boundary enforcement.  `#123abc` is never treated
as a reference to 123 — for every mapping the line is returned unchanged
with no change record, and the reference finder sees nothing — while
`#123` at end of line, before punctuation, or before whitespace is
treated as reference 123 and rewritten when mapped. -/
theorem boundary_enforcement :
    (∀ m : List (Int × Int), remap_line m (("#123abc").toList) = ((("#123abc").toList), [])) ∧
    find_issue_references_in_line (("#123abc").toList) = [] ∧
    find_issue_references_in_line (("#123").toList) = [123] ∧
    find_issue_references_in_line (("#123.").toList) = [123] ∧
    find_issue_references_in_line (("#123 ok").toList) = [123] ∧
    remap_line [((123 : Int), 777)] (("#123.").toList) = (("#777.").toList, [(123, 777)]) ∧
    remap_line [((123 : Int), 777)] (("#123").toList) = (("#777").toList, [(123, 777)]) :=
  ⟨fun _ => rfl, by decide, by decide, by decide, by decide, by decide, by decide⟩

/-- C6: dry-run equivalence.  For every file and mapping, processing
with `dry_run = true` and with `dry_run = false` (write succeeding)
return the same `(changed, num_changes)` value and the same printed
change report; the dry run ignores the write environment entirely and
persists nothing to disk, while the normal run persists exactly the
computed rewritten lines (when it writes at all). -/
theorem dry_run_equiv (m : List (Int × Int)) (lines : List (List Char)) :
    (process_file m lines true true).1 = (process_file m lines false true).1 ∧
    (process_file m lines true true).2.2 = (process_file m lines false true).2.2 ∧
    (process_file m lines true true).2.1 = none ∧
    process_file m lines true false = process_file m lines true true ∧
    ((process_file m lines false true).2.1 = none ∨
      (process_file m lines false true).2.1 =
        some (lines.map (fun l => (remap_line m l).1))) := by
  by_cases h : (processLines m 1 lines).2.1 = 0 <;>
    simp [process_file, h, processLines_fst]

/-- C7: an in-place write (not dry-run) persists a file with the same
line count and line ordering, where each output line is the token-wise
rewriting of the corresponding input line (only reference tokens are
altered, all other text is copied verbatim). -/
theorem write_preserves_line_structure (m : List (Int × Int))
    (lines content : List (List Char))
    (h : (process_file m lines false true).2.1 = some content) :
    content.length = lines.length ∧
    List.Forall₂ (fun a b => b = ((lineTokens a).map (renderTok m)).flatten) lines content := by
  have hc : content = (processLines m 1 lines).1 := by
    by_cases h0 : (processLines m 1 lines).2.1 = 0
    · simp [process_file, h0] at h
    · simp [process_file, h0] at h
      exact h.symm
  subst hc
  constructor
  · rw [processLines_fst]
    simp
  · exact processLines_forall2 m 1 lines

/-- C7 witness: writing the one-line file `#10` under `{10: 50}`. -/
theorem write_preserves_line_structure_w :
    List.Forall₂
      (fun a b => b = ((lineTokens a).map (renderTok [((10 : Int), 50)])).flatten)
      [("#10\n").toList] [("#50\n").toList] :=
  (write_preserves_line_structure [((10 : Int), 50)] [("#10\n").toList]
    [("#50\n").toList] (by decide)).2

/-- C8: a file whose rewrite pass yields zero changes is treated as
unchanged in every mode and environment: `process_file` returns
`((false, 0))` with no report and no write, and inserting such a file
anywhere in the run leaves both summary counters of `main` unchanged. -/
theorem zero_change_file_noop (m : List (Int × Int)) (lines : List (List Char))
    (h : (processLines m 1 lines).2.1 = 0) :
    (∀ dr w, process_file m lines dr w = ((false, 0), none, [])) ∧
    ∀ (pre post : List (List (List Char) × Bool)) (dr w : Bool),
      mainAccum m dr (pre ++ (lines, w) :: post) = mainAccum m dr (pre ++ post) := by
  constructor
  · intro dr w
    exact process_file_zero h dr w
  · intro pre post dr w
    exact mainAccum_skip m dr pre post (lines, w)
      (mainStep_id (by simp [process_file, h]))

/-- C8 witness: the file `see #20` passes the coarse pre-filter but has
zero changes under `{10: 50}`, and contributes nothing to the summary. -/
theorem zero_change_file_noop_w :
    has_issue_reference (("see #20\n").toList) = true ∧
      mainAccum [((10 : Int), 50)] false ([] ++ ([("see #20\n").toList], true) :: []) =
        mainAccum [((10 : Int), 50)] false ([] ++ []) :=
  ⟨by decide,
    (zero_change_file_noop [((10 : Int), 50)] [("see #20\n").toList] (by decide)).2
      [] [] false true⟩

/-- C9: substitutions are computed against the original line only: every
change record `(old, new)` of `remap_line` is a single lookup of a
reference found in the ORIGINAL line, and a written replacement value is
never rewritten again in the same pass — with the chained mapping
`{10: 20, 20: 30}` the line `#10` becomes `#20`, not `#30`. -/
theorem changes_from_original_line (m : List (Int × Int)) (l : List Char) :
    (∀ p ∈ (remap_line m l).2,
        mapLookup m p.1 = some p.2 ∧ p.1 ∈ find_issue_references_in_line l) ∧
    remap_line [((10 : Int), 20), (20, 30)] (("#10").toList) =
      (("#20").toList, [(10, 20)]) :=
  ⟨remap_changes_sources m l, by decide⟩

/-- C9 witness: the change `(10, 20)` of the concrete run comes from the
mapping and from a reference of the original line. -/
theorem changes_from_original_line_w :
    mapLookup [((10 : Int), 20), (20, 30)] 10 = some 20 ∧
      (10 : Int) ∈ find_issue_references_in_line (("#10").toList) :=
  (changes_from_original_line [((10 : Int), 20), (20, 30)] (("#10").toList)).1
    (10, 20) (by decide)

/-- C10: `remap_line` returns a line equal to its input iff its change
list is empty, and every recorded change `(old, new)` has `old ≠ new`
(so each recorded change really alters the line text). -/
theorem remap_line_unchanged_iff (m : List (Int × Int)) (l : List Char) :
    ((remap_line m l).1 = l ↔ (remap_line m l).2 = []) ∧
    ∀ p ∈ (remap_line m l).2, p.1 ≠ p.2 :=
  ⟨⟨fun h1 => by
      by_contra hne
      exact remapGo_changes_ne_nil m l.length l le_rfl hne h1,
    fun h2 => remapGo_no_changes m l.length l le_rfl h2⟩,
    remap_changes_ne_vals m l⟩

/-- C10 witness: the recorded change of the concrete run `{10: 50}` on
`#10` has distinct old and new values. -/
theorem remap_line_unchanged_iff_w :
    ((10 : Int), (50 : Int)).1 ≠ ((10 : Int), (50 : Int)).2 :=
  (remap_line_unchanged_iff [((10 : Int), 50)] (("#10").toList)).2 (10, 50) (by decide)
